import Mathlib

/-!
Verification development for the liquidator parallel FASTA motif scanner
(src/liquidator/fasta_scorer.cpp).

The embedding models the buffer as a list of characters and machine
size_t values as natural numbers, with the C++ constant
std::string::npos represented explicitly as 2^64 - 1 and the places
where size_t wrap-around genuinely matters computed modulo 2^64.
-/

/-- Modulus of the 64-bit size_t arithmetic used by the scanner. -/
def U64 : Nat := 2 ^ 64

/-- The value std::string::npos returned by failed searches. -/
def npos : Nat := U64 - 1

/-- The FASTA header marker character. -/
def hdrChar : Char := '>'

/-- The line break character. -/
def nlChar : Char := '\n'

/-- First index of a character in a list, scanning left to right. -/
def scanIdx : List Char → Char → Option Nat
  | [], _ => none
  | x :: xs, ch => if x = ch then some 0 else (scanIdx xs ch).map (· + 1)

/-- Embedding of std::string::find_first_of for a single character with a
start position, before the npos encoding: the least index at or after
pos holding ch, if any. -/
def findChar (s : List Char) (ch : Char) (pos : Nat) : Option Nat :=
  (scanIdx (s.drop pos) ch).map (pos + ·)

/-- Embedding of std::string::find_first_of for a single character:
returns npos when no occurrence at or after pos exists. -/
def find_first_of (s : List Char) (ch : Char) (pos : Nat) : Nat :=
  (findChar s ch pos).getD npos

/-- Fueled version of the inner sliding-window loop of Scorer::score
(fasta_scorer.cpp lines 126-128): windows (b, e) starting at
(sequence_begin, sequence_begin + width) and advancing both ends while
e is at most sequence_end. -/
def windowLoopF : Nat → Nat → Nat → Nat → List (Nat × Nat)
  | 0, _, _, _ => []
  | fuel + 1, se, b, e =>
    if e ≤ se then (b, e) :: windowLoopF fuel se (b + 1) (e + 1) else []

/-- The windows evaluated by the inner loop of Scorer::score for a
record whose sequence span ends at se, starting from window (b, e).
The fuel se + 1 - e is exactly the number of iterations. -/
def windowLoop (se b e : Nat) : List (Nat × Nat) :=
  windowLoopF (se + 1 - e) se b e

/-- Record span offsets located by one iteration of the Scorer::score
loop (fasta_scorer.cpp lines 112-122). -/
structure Located where
  nameBegin : Nat
  nameEnd : Nat
  seqBegin : Nat
  seqEnd : Nat
deriving DecidableEq

/-- Modelled from the spec: the byte complement used by reverse
complement rendering. The function complement called at
fasta_scorer.cpp line 167 lives in score_matrix.h, which is not part
of the sources here; the spec defines it as A-T and C-G swapping with
no case normalization, other bytes left to the implementation (here:
passed through unchanged). -/
def complement (c : Char) : Char :=
  if c = 'A' then 'T'
  else if c = 'T' then 'A'
  else if c = 'C' then 'G'
  else if c = 'G' then 'C'
  else c

/-- Embedding of the reverse-complement output loop of Scorer::score
(fasta_scorer.cpp lines 165-172): walk the window of width w starting
at b from its last byte down to its first, emitting complements. -/
def rcRender (fasta : List Char) (b : Nat) : Nat → List Char
  | 0 => []
  | w + 1 => complement (fasta.getD (b + w) 'X') :: rcRender fasta b w

/-- External scoring matrix as consumed by the scanner, with the
accessors used in fasta_scorer.cpp. The external function
detail::score reads exactly the window bytes, so it is modelled as a
function of the window contents; p-values and score coefficients are
modelled as rationals. -/
structure ScoreMatrix where
  name : List Char
  width : Nat
  scoreWindow : List Char → Nat
  pvalues : List ℚ
  scale : ℚ
  minBeforeScaling : ℚ
  isRC : Bool

/-- One output match record: the fields of the tab-separated line
written by Scorer::score (fasta_scorer.cpp lines 147-180), with the
numeric fields kept exact instead of decimal-formatted. -/
structure MatchRec where
  pattern : List Char
  seqName : List Char
  start : Nat
  stop : Nat
  strand : Char
  score : ℚ
  pvalue : ℚ
  matched : List Char
deriving DecidableEq

/-- The fixed significance threshold 0.001 of fasta_scorer.cpp line
140, as an exact rational. -/
def significanceThreshold : ℚ := mkRat 1 1000

/-- The body of the window loop of Scorer::score (fasta_scorer.cpp
lines 133-181): score the window, look up the p-value, and emit a
match exactly when the p-value is below 0.001. -/
def emitWindow (m : ScoreMatrix) (fasta : List Char) (L : Located) (b e : Nat) :
    Option MatchRec :=
  let scaled_score := m.scoreWindow ((fasta.drop b).take (e - b))
  let pvalue := m.pvalues.getD scaled_score 1
  if pvalue < significanceThreshold then
    some { pattern := m.name
           seqName := (fasta.drop L.nameBegin).take (L.nameEnd - L.nameBegin)
           start := b - L.seqBegin + 1
           stop := e - L.seqBegin
           strand := if m.isRC then '-' else '+'
           score := (scaled_score : ℚ) / m.scale + (m.width : ℚ) * m.minBeforeScaling
           pvalue := pvalue
           matched := if m.isRC then rcRender fasta b m.width
                      else (fasta.drop b).take m.width }
  else none

/-- All matches one matrix contributes for one located record: the
inner loop of Scorer::score. -/
def windowMatches (m : ScoreMatrix) (fasta : List Char) (L : Located) : List MatchRec :=
  (windowLoop L.seqEnd L.seqBegin (L.seqBegin + m.width)).filterMap
    (fun w => emitWindow m fasta L w.1 w.2)

/-- All matches of one located record, matrices in list order
(fasta_scorer.cpp line 124 outer loop). -/
def recordMatches (ms : List ScoreMatrix) (fasta : List Char) (L : Located) :
    List MatchRec :=
  ms.flatMap (fun m => windowMatches m fasta L)

/-- Fueled embedding of the while loop of Scorer::score
(fasta_scorer.cpp lines 107-186), returning the located record spans
in scan order. Searches that fail return npos = 2^64 - 1 and the two
places where the C++ size_t increment of such a value wraps are
computed modulo 2^64. -/
def scanLoop (fasta : List Char) : Nat → Nat → Nat → List Located
  | 0, _, _ => []
  | fuel + 1, region_begin, region_end =>
    let nb := find_first_of fasta hdrChar region_begin
    if region_end ≤ nb then []
    else
      let name_begin := nb + 1
      let name_end := find_first_of fasta nlChar (name_begin + 1)
      let sequence_begin := (name_end + 1) % U64
      let sequence_end := find_first_of fasta nlChar (sequence_begin + 1)
      { nameBegin := name_begin, nameEnd := name_end,
        seqBegin := sequence_begin, seqEnd := sequence_end } ::
      scanLoop fasta fuel ((sequence_end + 1) % U64) region_end

/-- The record spans located by Scorer::score over one region, with
fuel one more than the buffer length (enough for every terminating
run). -/
def scoreRegionRecords (fasta : List Char) (region_begin region_end : Nat) :
    List Located :=
  scanLoop fasta (fasta.length + 1) region_begin region_end

/-- Embedding of Scorer::score over one region: the match lines
appended to the owning worker buffer, in append order. -/
def scorer_score (ms : List ScoreMatrix) (fasta : List Char)
    (region_begin region_end : Nat) : List MatchRec :=
  (scoreRegionRecords fasta region_begin region_end).flatMap
    (recordMatches ms fasta)

/-- The grainsize constant of process_fasta (fasta_scorer.cpp line 239). -/
def grainsize : Nat := 8400

/-- Fueled recursive halving of a tbb::blocked_range carried to
completion: a range is divisible while longer than the grainsize, and
splitting takes the midpoint, per the documented blocked_range
semantics used at fasta_scorer.cpp line 245. This is the finest
dispatch the partitioner can produce; the inductive IsDispatch below
captures every dispatch the auto partitioner of line 250 may
produce. -/
def splitRangeF : Nat → Nat → Nat → Nat → List (Nat × Nat)
  | 0, _, b, e => [(b, e)]
  | fuel + 1, g, b, e =>
    if g < e - b then
      let m := b + (e - b) / 2
      splitRangeF fuel g b m ++ splitRangeF fuel g m e
    else [(b, e)]

/-- The finest byte-range decomposition of
tbb::blocked_range(0, n, grainsize), one of the dispatches the
partitioner may produce, used as the representative dispatch in the
process_fasta model below. -/
def blockedRanges (n : Nat) : List (Nat × Nat) :=
  splitRangeF n grainsize 0 n

/-- The byte-range lists tbb::parallel_for may hand to workers for a
blocked_range over bytes b to e with grainsize g (fasta_scorer.cpp
lines 244-250): a range is either executed whole, or, while it is
divisible (longer than the grainsize), split at its midpoint with each
half dispatched recursively. The auto partitioner used by the code may
stop splitting at any point, so a divisible range may be executed
whole and dispatched range lengths are not bounded by the
grainsize. -/
inductive IsDispatch (g : Nat) : Nat → Nat → List (Nat × Nat) → Prop
  | whole (b e : Nat) : IsDispatch g b e [(b, e)]
  | split (b e : Nat) (L R : List (Nat × Nat)) :
      g < e - b →
      IsDispatch g b (b + (e - b) / 2) L →
      IsDispatch g (b + (e - b) / 2) e R →
      IsDispatch g b e (L ++ R)

/-- Observable outcome of process_fasta (fasta_scorer.cpp lines
210-255), embedding the I/O skeleton: the input file contents are
either some byte list or none for an open failure (get_file_contents
throws, lines 58-64); outputOk says whether the output path opened.
The output stream open result is never checked by the source, so the
scan is dispatched regardless and writes to a failed stream are
dropped. Returns the dispatched regions and the match lines that
reached the output file. -/
def process_fasta (ms : List ScoreMatrix) (input : Option (List Char))
    (outputOk : Bool) : Except (List Char) (List (Nat × Nat) × List MatchRec) :=
  match input with
  | none => .error ("Failed to open file".toList)
  | some fasta =>
    let regions := blockedRanges fasta.length
    let lines := regions.flatMap (fun r => scorer_score ms fasta r.1 r.2)
    .ok (regions, if outputOk then lines else [])

/-- One parsed FASTA record: a name line and a single sequence line. -/
structure FastaRec where
  name : List Char
  seq : List Char
deriving DecidableEq

/-- The byte encoding of one FASTA record inside the buffer. -/
def encodeRec (r : FastaRec) : List Char :=
  hdrChar :: r.name ++ nlChar :: r.seq ++ [nlChar]

/-- The byte encoding of a whole FASTA file. -/
def encode (rs : List FastaRec) : List Char :=
  rs.flatMap encodeRec

/-- Number of buffer bytes occupied by one record. -/
def recSize (r : FastaRec) : Nat :=
  r.name.length + r.seq.length + 3

/-- Total encoded size of a record list. -/
def sizeSum (rs : List FastaRec) : Nat :=
  (rs.map recSize).sum

/-- Each record paired with its header byte offset, starting at o. -/
def withOffsets : Nat → List FastaRec → List (Nat × FastaRec)
  | _, [] => []
  | o, r :: rs => (o, r) :: withOffsets (o + recSize r) rs

/-- Well-formedness of one record as required by the single-line
record grammar the scanner walks: nonempty name and sequence, neither
containing a line break or a header marker. -/
def goodRec (r : FastaRec) : Prop :=
  r.name ≠ [] ∧ r.seq ≠ [] ∧ hdrChar ∉ r.name ∧ nlChar ∉ r.name ∧
    hdrChar ∉ r.seq ∧ nlChar ∉ r.seq

instance : DecidablePred goodRec := fun r => by
  unfold goodRec; infer_instance

/-- Well-formedness of a whole FASTA file. -/
def goodFasta (rs : List FastaRec) : Prop :=
  ∀ r ∈ rs, goodRec r

instance : DecidablePred goodFasta := fun rs => by
  unfold goodFasta; infer_instance

/-- The true span offsets of a record whose header byte sits at offset o. -/
def locatedOf (o : Nat) (r : FastaRec) : Located :=
  { nameBegin := o + 1
    nameEnd := o + r.name.length + 1
    seqBegin := o + r.name.length + 2
    seqEnd := o + r.name.length + r.seq.length + 2 }

/-- Modelled from the spec: the sequential fallback path of
process_fasta_serial (fasta_scorer.cpp lines 27-51) delegates record
streaming, scoring and line printing to FastaReader,
ScoreMatrix::score and FimoStylePrinter, none of which are among the
sources here. Per spec section 4.6 it scores the records in file
order, each against every matrix in matrix-list order, with the same
window, threshold and line semantics as the parallel path. -/
def serialEmit (m : ScoreMatrix) (r : FastaRec) (b e : Nat) : Option MatchRec :=
  let scaled_score := m.scoreWindow ((r.seq.drop b).take (e - b))
  let pvalue := m.pvalues.getD scaled_score 1
  if pvalue < significanceThreshold then
    some { pattern := m.name
           seqName := r.name
           start := b + 1
           stop := e
           strand := if m.isRC then '-' else '+'
           score := (scaled_score : ℚ) / m.scale + (m.width : ℚ) * m.minBeforeScaling
           pvalue := pvalue
           matched := if m.isRC then
               (((r.seq.drop b).take (e - b)).map complement).reverse
             else (r.seq.drop b).take (e - b) }
  else none

/-- Modelled from the spec: all serial matches of one record, matrices
in matrix-list order, windows in position order. -/
def serialRecordMatches (ms : List ScoreMatrix) (r : FastaRec) : List MatchRec :=
  ms.flatMap (fun m =>
    (windowLoop r.seq.length 0 m.width).filterMap (fun w => serialEmit m r w.1 w.2))

/-- Modelled from the spec: the whole sequential fallback path, which
fails on an unopenable input (the source checks the input stream,
lines 31-35) and otherwise emits the serial match lines in file
order. -/
def process_fasta_serial (ms : List ScoreMatrix) (input : Option (List FastaRec)) :
    Except (List Char) (List MatchRec) :=
  match input with
  | none => .error ("failed to open".toList)
  | some rs => .ok (rs.flatMap (serialRecordMatches ms))

/-- Chained region lists: consecutive half-open ranges from a to b. -/
def chainFrom : Nat → List (Nat × Nat) → Nat → Prop
  | a, [], b => a = b
  | a, r :: rest, b => a = r.1 ∧ chainFrom r.2 rest b

theorem scanIdx_not_mem {l : List Char} {ch : Char} (h : ch ∉ l) :
    scanIdx l ch = none := by
  induction l with
  | nil => rfl
  | cons x xs ih =>
    simp only [List.mem_cons, not_or] at h
    have hx : ¬ (x = ch) := fun hh => h.1 hh.symm
    simp only [scanIdx, if_neg hx, ih h.2, Option.map_none']

theorem scanIdx_first {xs ys : List Char} {ch : Char} (h : ch ∉ xs) :
    scanIdx (xs ++ ch :: ys) ch = some xs.length := by
  induction xs with
  | nil => simp [scanIdx]
  | cons x xs ih =>
    simp only [List.mem_cons, not_or] at h
    have hx : ¬ (x = ch) := fun hh => h.1 hh.symm
    rw [List.cons_append]
    simp only [scanIdx, if_neg hx, ih h.2, Option.map_some', List.length_cons]

theorem findChar_shape {s xs ys : List Char} {ch : Char} {c : Nat}
    (h : s.drop c = xs ++ ch :: ys) (hx : ch ∉ xs) :
    findChar s ch c = some (c + xs.length) := by
  simp only [findChar, h, scanIdx_first hx, Option.map_some']

theorem findChar_not {s : List Char} {ch : Char} {c : Nat}
    (h : ch ∉ s.drop c) : findChar s ch c = none := by
  simp only [findChar, scanIdx_not_mem h, Option.map_none']

theorem find_first_of_shape {s xs ys : List Char} {ch : Char} {c : Nat}
    (h : s.drop c = xs ++ ch :: ys) (hx : ch ∉ xs) :
    find_first_of s ch c = c + xs.length := by
  simp only [find_first_of, findChar_shape h hx, Option.getD_some]

theorem find_first_of_not {s : List Char} {ch : Char} {c : Nat}
    (h : ch ∉ s.drop c) : find_first_of s ch c = npos := by
  simp only [find_first_of, findChar_not h, Option.getD_none]

theorem windowLoopF_length (fuel se b e : Nat) :
    (windowLoopF fuel se b e).length = min fuel (se + 1 - e) := by
  induction fuel generalizing b e with
  | zero => simp [windowLoopF]
  | succ f ih =>
    by_cases h : e ≤ se
    · simp only [windowLoopF, if_pos h, List.length_cons, ih]
      omega
    · simp only [windowLoopF, if_neg h, List.length_nil]
      omega

theorem windowLoop_length (se b e : Nat) :
    (windowLoop se b e).length = se + 1 - e := by
  simp [windowLoop, windowLoopF_length]

theorem windowLoopF_mem {x : Nat × Nat} {fuel se b e : Nat}
    (h : x ∈ windowLoopF fuel se b e) :
    ∃ k, x = (b + k, e + k) ∧ e + k ≤ se := by
  induction fuel generalizing b e with
  | zero => simp [windowLoopF] at h
  | succ f ih =>
    by_cases hle : e ≤ se
    · simp only [windowLoopF, if_pos hle, List.mem_cons] at h
      rcases h with h1 | h2
      · exact ⟨0, by simpa using h1, by omega⟩
      · obtain ⟨k, hk, hk2⟩ := ih h2
        refine ⟨k + 1, ?_, by omega⟩
        rw [hk, Prod.mk.injEq]
        omega
    · simp only [windowLoopF, if_neg hle, List.not_mem_nil] at h

theorem windowLoop_mem_intro {se b e : Nat} (k : Nat) (h : e + k ≤ se) :
    (b + k, e + k) ∈ windowLoop se b e := by
  have main : ∀ fuel k b e, e + k ≤ se → k < fuel →
      (b + k, e + k) ∈ windowLoopF fuel se b e := by
    intro fuel
    induction fuel with
    | zero => intro k b e _ hk; omega
    | succ f ih =>
      intro k b e hke hk
      have hle : e ≤ se := by omega
      simp only [windowLoopF, if_pos hle, List.mem_cons]
      cases k with
      | zero => left; rfl
      | succ k0 =>
        right
        have hk1 : b + (k0 + 1) = (b + 1) + k0 := by omega
        have hk2 : e + (k0 + 1) = (e + 1) + k0 := by omega
        rw [hk1, hk2]
        exact ih k0 (b + 1) (e + 1) (by omega) (by omega)
  exact main (se + 1 - e) k b e h (by omega)

theorem windowLoop_shift (k se b e : Nat) :
    windowLoop (k + se) (k + b) (k + e) =
      (windowLoop se b e).map (fun w => (k + w.1, k + w.2)) := by
  have main : ∀ fuel b e, windowLoopF fuel (k + se) (k + b) (k + e) =
      (windowLoopF fuel se b e).map (fun w => (k + w.1, k + w.2)) := by
    intro fuel
    induction fuel with
    | zero => intro b e; rfl
    | succ f ih =>
      intro b e
      by_cases h : e ≤ se
      · have ihs := ih (b + 1) (e + 1)
        simp only [windowLoopF, if_pos h,
          if_pos (show k + e ≤ k + se by omega), List.map_cons]
        rw [show k + b + 1 = k + (b + 1) by omega,
          show k + e + 1 = k + (e + 1) by omega, ihs]
      · simp [windowLoopF, if_neg h, if_neg (show ¬ k + e ≤ k + se by omega)]
  have hfuel : k + se + 1 - (k + e) = se + 1 - e := by omega
  simp only [windowLoop, hfuel, main]

theorem chainFrom_append {P Q : List (Nat × Nat)} {a m c : Nat}
    (hP : chainFrom a P m) (hQ : chainFrom m Q c) : chainFrom a (P ++ Q) c := by
  induction P generalizing a with
  | nil => cases hP; simpa using hQ
  | cons r rest ih =>
    obtain ⟨h1, h2⟩ := hP
    exact ⟨h1, ih h2⟩

theorem chainFrom_lb {P : List (Nat × Nat)} {a c : Nat}
    (hP : chainFrom a P c) (hwf : ∀ r ∈ P, r.1 ≤ r.2) :
    ∀ r ∈ P, a ≤ r.1 := by
  induction P generalizing a with
  | nil => intro r hr; simp at hr
  | cons x rest ih =>
    obtain ⟨h1, h2⟩ := hP
    intro r hr
    rcases List.mem_cons.mp hr with h | h
    · subst h; omega
    · have hx : x.1 ≤ x.2 := hwf x (List.mem_cons_self x rest)
      have := ih h2 (fun r hr => hwf r (List.mem_cons_of_mem x hr)) r h
      omega

theorem chainFrom_cover {P : List (Nat × Nat)} {a c : Nat}
    (hP : chainFrom a P c) : ∀ p, a ≤ p → p < c → ∃ r ∈ P, r.1 ≤ p ∧ p < r.2 := by
  induction P generalizing a with
  | nil => intro p h1 h2; cases hP; omega
  | cons x rest ih =>
    obtain ⟨h1, h2⟩ := hP
    intro p hp1 hp2
    by_cases hx : p < x.2
    · exact ⟨x, List.mem_cons_self x rest, by omega, hx⟩
    · obtain ⟨r, hr, hr2⟩ := ih h2 p (by omega) hp2
      exact ⟨r, List.mem_cons_of_mem x hr, hr2⟩

theorem chainFrom_unique {P : List (Nat × Nat)} {a c : Nat}
    (hP : chainFrom a P c) (hwf : ∀ r ∈ P, r.1 ≤ r.2) :
    ∀ p r s, r ∈ P → s ∈ P → r.1 ≤ p → p < r.2 → s.1 ≤ p → p < s.2 → r = s := by
  induction P generalizing a with
  | nil => intro p r s hr; simp at hr
  | cons x rest ih =>
    obtain ⟨h1, h2⟩ := hP
    intro p r s hr hs hr1 hr2 hs1 hs2
    have hlb := chainFrom_lb h2 (fun t ht => hwf t (List.mem_cons_of_mem x ht))
    rcases List.mem_cons.mp hr with h | h <;> rcases List.mem_cons.mp hs with h' | h'
    · rw [h, h']
    · exfalso
      have := hlb s h'
      subst h
      omega
    · exfalso
      have := hlb r h
      subst h'
      omega
    · exact ih h2 (fun t ht => hwf t (List.mem_cons_of_mem x ht)) p r s h h' hr1 hr2 hs1 hs2

theorem splitRangeF_chain (fuel g : Nat) : ∀ b e, b ≤ e →
    chainFrom b (splitRangeF fuel g b e) e := by
  induction fuel with
  | zero => intro b e h; exact ⟨rfl, rfl⟩
  | succ f ih =>
    intro b e h
    by_cases hd : g < e - b
    · simp only [splitRangeF, if_pos hd]
      exact chainFrom_append (ih b (b + (e - b) / 2) (by omega))
        (ih (b + (e - b) / 2) e (by omega))
    · simp only [splitRangeF, if_neg hd]
      exact ⟨rfl, rfl⟩

theorem splitRangeF_wf (fuel g : Nat) : ∀ b e, b ≤ e →
    ∀ r ∈ splitRangeF fuel g b e, b ≤ r.1 ∧ r.1 ≤ r.2 ∧ r.2 ≤ e := by
  induction fuel with
  | zero =>
    intro b e h r hr
    simp only [splitRangeF, List.mem_singleton] at hr
    subst hr
    exact ⟨le_refl _, h, le_refl _⟩
  | succ f ih =>
    intro b e h r hr
    by_cases hd : g < e - b
    · simp only [splitRangeF, if_pos hd, List.mem_append] at hr
      rcases hr with hr | hr
      · have := ih b (b + (e - b) / 2) (by omega) r hr
        omega
      · have := ih (b + (e - b) / 2) e (by omega) r hr
        omega
    · simp only [splitRangeF, if_neg hd, List.mem_singleton] at hr
      subst hr
      exact ⟨le_refl _, h, le_refl _⟩

theorem splitRangeF_small (fuel g : Nat) (hg : 1 ≤ g) : ∀ b e, e - b ≤ fuel →
    ∀ r ∈ splitRangeF fuel g b e, r.2 - r.1 ≤ g := by
  induction fuel with
  | zero =>
    intro b e h r hr
    simp only [splitRangeF, List.mem_singleton] at hr
    subst hr
    omega
  | succ f ih =>
    intro b e h r hr
    by_cases hd : g < e - b
    · simp only [splitRangeF, if_pos hd, List.mem_append] at hr
      rcases hr with hr | hr
      · exact ih b (b + (e - b) / 2) (by omega) r hr
      · exact ih (b + (e - b) / 2) e (by omega) r hr
    · simp only [splitRangeF, if_neg hd, List.mem_singleton] at hr
      subst hr
      omega

theorem blockedRanges_chain (n : Nat) : chainFrom 0 (blockedRanges n) n :=
  splitRangeF_chain n grainsize 0 n (Nat.zero_le n)

theorem blockedRanges_wf (n : Nat) : ∀ r ∈ blockedRanges n, r.1 ≤ r.2 :=
  fun r hr => (splitRangeF_wf n grainsize 0 n (Nat.zero_le n) r hr).2.1

theorem isDispatch_chain {g b e : Nat} {D : List (Nat × Nat)}
    (hD : IsDispatch g b e D) : b ≤ e →
    chainFrom b D e ∧ ∀ r ∈ D, r.1 ≤ r.2 := by
  induction hD with
  | whole b e =>
    intro hbe
    refine ⟨⟨rfl, rfl⟩, ?_⟩
    intro r hr
    rw [List.mem_singleton] at hr
    subst hr
    exact hbe
  | split b e L R hdiv hL hR ihL ihR =>
    intro hbe
    have h1 := ihL (by omega)
    have h2 := ihR (by omega)
    refine ⟨chainFrom_append h1.1 h2.1, ?_⟩
    intro r hr
    rcases List.mem_append.mp hr with h | h
    · exact h1.2 r h
    · exact h2.2 r h

theorem isDispatch_splitRangeF (fuel g : Nat) : ∀ b e,
    IsDispatch g b e (splitRangeF fuel g b e) := by
  induction fuel with
  | zero => intro b e; exact IsDispatch.whole b e
  | succ f ih =>
    intro b e
    by_cases hd : g < e - b
    · simp only [splitRangeF, if_pos hd]
      exact IsDispatch.split b e _ _ hd (ih b _) (ih _ e)
    · simp only [splitRangeF, if_neg hd]
      exact IsDispatch.whole b e

/-- C10 (amended): every byte-range list the dispatcher may produce
for a buffer of length n is a chain from 0 to n of well-formed ranges,
so the dispatched ranges are contiguous, non-overlapping, and their
union is exactly the interval from 0 to n, with every byte position
below n lying in exactly one range. The grainsize bounds range
lengths only when the splitting is carried to completion: the finest
decomposition is one of the possible dispatches and each of its ranges
is at most the grainsize long, but the auto partitioner may execute a
longer divisible range whole. -/
theorem region_partitioner_ranges (n : Nat) :
    (∀ D, IsDispatch grainsize 0 n D →
      chainFrom 0 D n ∧ (∀ r ∈ D, r.1 ≤ r.2) ∧
      (∀ p, p < n → ∃! r, r ∈ D ∧ r.1 ≤ p ∧ p < r.2)) ∧
    IsDispatch grainsize 0 n (blockedRanges n) ∧
    (∀ r ∈ blockedRanges n, r.1 ≤ r.2 ∧ r.2 - r.1 ≤ grainsize) := by
  refine ⟨?_, isDispatch_splitRangeF n grainsize 0 n, ?_⟩
  · intro D hD
    obtain ⟨hchain, hwf⟩ := isDispatch_chain hD (Nat.zero_le n)
    refine ⟨hchain, hwf, ?_⟩
    intro p hp
    obtain ⟨r, hr, hr2⟩ := chainFrom_cover hchain p (Nat.zero_le p) hp
    refine ⟨r, ⟨hr, hr2⟩, ?_⟩
    rintro s ⟨hs, hs2⟩
    exact chainFrom_unique hchain hwf p s r hs hr hs2.1 hs2.2 hr2.1 hr2.2
  · intro r hr
    have hwf := splitRangeF_wf n grainsize 0 n (Nat.zero_le n) r hr
    have hsmall := splitRangeF_small n grainsize (by decide) 0 n (by omega) r hr
    exact ⟨hwf.2.1, hsmall⟩

/-- Counterexample for C10 as stated: the dispatcher may split a
20000-byte buffer once and execute both 10000-byte halves whole, a
legal dispatch under the auto partitioner; the first dispatched range
is longer than the grainsize 8400 and is not the last range of the
list. -/
theorem region_partitioner_ranges_counterexample :
    IsDispatch grainsize 0 20000 [(0, 10000), (10000, 20000)] ∧
    grainsize < 10000 - 0 ∧
    [((0 : Nat), (10000 : Nat)), (10000, 20000)].getLast? =
      some (10000, 20000) ∧
    ((0 : Nat), (10000 : Nat)) ≠ ((10000 : Nat), (20000 : Nat)) := by
  refine ⟨?_, by decide, by decide, by decide⟩
  exact IsDispatch.split 0 20000 [(0, 10000)] [(10000, 20000)] (by decide)
    (IsDispatch.whole 0 10000) (IsDispatch.whole 10000 20000)

/-- Witness for C10 (amended): the one-range dispatch of a 20000-byte
buffer, legal because the auto partitioner may execute the root range
whole, and the point 9999 lying in exactly one of its ranges. -/
theorem region_partitioner_ranges_witness :
    IsDispatch grainsize 0 20000 [(0, 20000)] ∧ 9999 < 20000 ∧
      chainFrom 0 [((0 : Nat), (20000 : Nat))] 20000 ∧
      (∃! r, r ∈ [((0 : Nat), (20000 : Nat))] ∧ r.1 ≤ 9999 ∧ 9999 < r.2) := by
  have hD : IsDispatch grainsize 0 20000 [(0, 20000)] :=
    IsDispatch.whole 0 20000
  have h := (region_partitioner_ranges 20000).1 [(0, 20000)] hD
  exact ⟨hD, by decide, h.1, h.2.2 9999 (by decide)⟩

theorem encode_cons (r : FastaRec) (rs : List FastaRec) :
    encode (r :: rs) = encodeRec r ++ encode rs := by
  simp [encode]

theorem length_encodeRec (r : FastaRec) : (encodeRec r).length = recSize r := by
  simp [encodeRec, recSize]
  omega

theorem length_encode (rs : List FastaRec) : (encode rs).length = sizeSum rs := by
  induction rs with
  | nil => rfl
  | cons r rest ih =>
    rw [encode_cons, List.length_append, length_encodeRec, ih]
    simp [sizeSum]

theorem recSize_pos (r : FastaRec) : 3 ≤ recSize r := by
  simp [recSize]

theorem length_le_sizeSum (rs : List FastaRec) : rs.length ≤ sizeSum rs := by
  induction rs with
  | nil => simp [sizeSum]
  | cons r rest ih =>
    have := recSize_pos r
    simp only [List.length_cons, sizeSum, List.map_cons, List.sum_cons]
    have h2 : sizeSum rest = (rest.map recSize).sum := rfl
    omega

theorem withOffsets_lb {o : Nat} {rs : List FastaRec} :
    ∀ x ∈ withOffsets o rs, o ≤ x.1 := by
  induction rs generalizing o with
  | nil => intro x hx; simp [withOffsets] at hx
  | cons r rest ih =>
    intro x hx
    rcases List.mem_cons.mp hx with h | h
    · subst h; exact le_refl _
    · have hr := recSize_pos r
      have := ih x h
      omega

theorem withOffsets_shift (k o : Nat) (rs : List FastaRec) :
    withOffsets (k + o) rs = (withOffsets o rs).map (fun x => (k + x.1, x.2)) := by
  induction rs generalizing o with
  | nil => rfl
  | cons r rest ih =>
    simp only [withOffsets, List.map_cons]
    rw [show k + o + recSize r = k + (o + recSize r) by omega, ih]

theorem sizeSum_cons (r : FastaRec) (rs : List FastaRec) :
    sizeSum (r :: rs) = recSize r + sizeSum rs := by
  simp [sizeSum]

theorem withOffsets_append (o : Nat) (xs ys : List FastaRec) :
    withOffsets o (xs ++ ys) =
      withOffsets o xs ++ withOffsets (o + sizeSum xs) ys := by
  induction xs generalizing o with
  | nil => simp [withOffsets, sizeSum]
  | cons r rest ih =>
    simp only [List.cons_append, withOffsets, List.append_eq, ih, sizeSum_cons]
    rw [show o + (recSize r + sizeSum rest) = o + recSize r + sizeSum rest by omega]

theorem hdr_not_in_tail {r : FastaRec} (h : goodRec r) :
    hdrChar ∉ r.name ++ nlChar :: r.seq ++ [nlChar] := by
  obtain ⟨-, -, hn, -, hs, -⟩ := h
  have hne : hdrChar ≠ nlChar := by decide
  intro hmem
  rcases List.mem_append.mp hmem with h1 | h1
  · rcases List.mem_append.mp h1 with h2 | h2
    · exact hn h2
    · rcases List.mem_cons.mp h2 with h3 | h3
      · exact hne h3
      · exact hs h3
  · exact hne (List.mem_singleton.mp h1)

theorem drop_encodeRec_subset (r : FastaRec) (c : Nat) (hc : 1 ≤ c) :
    (encodeRec r).drop c ⊆ r.name ++ nlChar :: r.seq ++ [nlChar] := by
  obtain ⟨c0, rfl⟩ : ∃ c0, c = c0 + 1 := ⟨c - 1, by omega⟩
  rw [encodeRec, List.cons_append, List.cons_append, List.drop_succ_cons]
  exact List.drop_subset _ _

theorem gt_free_encode : ∀ (rs : List FastaRec), goodFasta rs → ∀ c,
    (∀ x ∈ withOffsets 0 rs, x.1 < c) → hdrChar ∉ (encode rs).drop c := by
  intro rs
  induction rs with
  | nil =>
    intro _ c _ h
    simp only [encode, List.flatMap_nil, List.drop_nil, List.not_mem_nil] at h
  | cons r rest ih =>
    intro hg c hofs
    have hgr : goodRec r := hg r (List.mem_cons_self r rest)
    have hc0 : 0 < c := hofs (0, r) (by simp [withOffsets])
    rw [encode_cons]
    by_cases hcr : c ≤ recSize r
    · cases rest with
      | nil =>
        simp only [encode, List.flatMap_nil, List.append_nil]
        intro hmem
        exact hdr_not_in_tail hgr (drop_encodeRec_subset r c (by omega) hmem)
      | cons r2 rest2 =>
        exfalso
        have hmem : ((recSize r : Nat), r2) ∈ withOffsets 0 (r :: r2 :: rest2) := by
          simp [withOffsets]
        have := hofs _ hmem
        simp only at this
        omega
    · have hsplit : c = (encodeRec r).length + (c - recSize r) := by
        rw [length_encodeRec]; omega
      rw [hsplit, List.drop_append]
      apply ih (fun t ht => hg t (List.mem_cons_of_mem r ht))
      intro x hx
      have hx2 : ((recSize r + x.1 : Nat), x.2) ∈ withOffsets 0 (r :: rest) := by
        simp only [withOffsets, Nat.zero_add]
        apply List.mem_cons_of_mem
        rw [show (recSize r : Nat) = recSize r + 0 by omega, withOffsets_shift]
        exact List.mem_map.mpr ⟨x, hx, by simp⟩
      have := hofs _ hx2
      simp only at this
      omega

theorem encodeRec_append_eq (r : FastaRec) (T : List Char) :
    encodeRec r ++ T =
      hdrChar :: (r.name ++ (nlChar :: (r.seq ++ (nlChar :: T)))) := by
  simp [encodeRec]

theorem encode_append (xs ys : List FastaRec) :
    encode (xs ++ ys) = encode xs ++ encode ys := by
  simp [encode]

theorem sizeSum_append (xs ys : List FastaRec) :
    sizeSum (xs ++ ys) = sizeSum xs + sizeSum ys := by
  simp [sizeSum]

theorem filter_eq_nil_of {α : Type} (p : α → Bool) (l : List α)
    (h : ∀ a ∈ l, p a = false) : l.filter p = [] := by
  induction l with
  | nil => rfl
  | cons a rest ih =>
    rw [List.filter_cons, h a (List.mem_cons_self a rest)]
    exact ih (fun x hx => h x (List.mem_cons_of_mem a hx))

theorem find_hdr_at (P T : List Char) (r : FastaRec) (c : Nat)
    (hc : c ≤ P.length) (hfree : hdrChar ∉ P.drop c) :
    find_first_of (P ++ (encodeRec r ++ T)) hdrChar c = P.length := by
  have hdrop : (P ++ (encodeRec r ++ T)).drop c =
      P.drop c ++ (hdrChar :: (r.name ++ (nlChar :: (r.seq ++ (nlChar :: T))))) := by
    rw [List.drop_append_of_le_length hc, encodeRec_append_eq]
  rw [find_first_of_shape hdrop hfree, List.length_drop]
  omega

theorem find_name_end (P T : List Char) (r : FastaRec)
    (h1 : r.name ≠ []) (h2 : nlChar ∉ r.name) :
    find_first_of (P ++ (encodeRec r ++ T)) nlChar (P.length + 2) =
      P.length + r.name.length + 1 := by
  obtain ⟨n0, ntail, hn⟩ : ∃ n0 ntail, r.name = n0 :: ntail := by
    cases hname : r.name with
    | nil => exact absurd hname h1
    | cons a b => exact ⟨a, b, rfl⟩
  have hdrop : (P ++ (encodeRec r ++ T)).drop (P.length + 2) =
      ntail ++ (nlChar :: (r.seq ++ (nlChar :: T))) := by
    rw [List.drop_append, encodeRec_append_eq, hn]
    rfl
  have h2t : nlChar ∉ ntail := fun hx => h2 (hn ▸ List.mem_cons_of_mem n0 hx)
  rw [find_first_of_shape hdrop h2t]
  have : r.name.length = ntail.length + 1 := by rw [hn]; rfl
  omega

theorem find_seq_end (P T : List Char) (r : FastaRec)
    (h1 : r.seq ≠ []) (h2 : nlChar ∉ r.seq) :
    find_first_of (P ++ (encodeRec r ++ T)) nlChar (P.length + (r.name.length + 3)) =
      P.length + r.name.length + r.seq.length + 2 := by
  obtain ⟨s0, stail, hs⟩ : ∃ s0 stail, r.seq = s0 :: stail := by
    cases hseq : r.seq with
    | nil => exact absurd hseq h1
    | cons a b => exact ⟨a, b, rfl⟩
  have hdrop : (P ++ (encodeRec r ++ T)).drop (P.length + (r.name.length + 3)) =
      stail ++ (nlChar :: T) := by
    rw [List.drop_append, encodeRec_append_eq,
      show r.name.length + 3 = (r.name.length + 2) + 1 by omega,
      List.drop_succ_cons,
      show r.name.length + 2 = r.name.length + 2 from rfl]
    rw [List.drop_append, hs]
    rfl
  have h2t : nlChar ∉ stail := fun hx => h2 (hs ▸ List.mem_cons_of_mem s0 hx)
  rw [find_first_of_shape hdrop h2t]
  have : r.seq.length = stail.length + 1 := by rw [hs]; rfl
  omega

theorem npos_lt : npos < U64 := by
  norm_num [npos, U64]

theorem scanLoop_char (suf : List FastaRec) :
    ∀ (pre : List FastaRec) (c e fuel : Nat),
      goodFasta (pre ++ suf) →
      (∀ x ∈ withOffsets 0 pre, x.1 < c) →
      (suf ≠ [] → c ≤ sizeSum pre) →
      e ≤ sizeSum (pre ++ suf) →
      sizeSum (pre ++ suf) < npos →
      suf.length + 1 ≤ fuel →
      scanLoop (encode (pre ++ suf)) fuel c e =
        ((withOffsets (sizeSum pre) suf).filter
            (fun x => decide (c ≤ x.1) && decide (x.1 < e))).map
          (fun x => locatedOf x.1 x.2) := by
  induction suf with
  | nil =>
    intro pre c e fuel hg hofs _ he hN hfuel
    obtain ⟨f, rfl⟩ : ∃ f, fuel = f + 1 := ⟨fuel - 1, by omega⟩
    have hfree : hdrChar ∉ (encode (pre ++ [])).drop c := by
      rw [List.append_nil]
      exact gt_free_encode pre (by simpa using hg) c hofs
    have hfind : find_first_of (encode (pre ++ [])) hdrChar c = npos :=
      find_first_of_not hfree
    simp only [scanLoop, hfind, withOffsets, List.filter_nil, List.map_nil]
    rw [if_pos (by omega)]
  | cons r rest ih =>
    intro pre c e fuel hg hofs hcs he hN hfuel
    obtain ⟨f, rfl⟩ : ∃ f, fuel = f + 1 := ⟨fuel - 1, by omega⟩
    have hgr : goodRec r := hg r (by simp)
    obtain ⟨hnne, hsne, hhn, hnn, hhs, hns⟩ := hgr
    have hrec : recSize r = r.name.length + r.seq.length + 3 := rfl
    have hB : encode (pre ++ r :: rest) =
        encode pre ++ (encodeRec r ++ encode rest) := by
      rw [encode_append, encode_cons]
    have hc : c ≤ sizeSum pre := hcs (by simp)
    have hgpre : goodFasta pre := fun t ht => hg t (List.mem_append_left _ ht)
    have hfree : hdrChar ∉ (encode pre).drop c := gt_free_encode pre hgpre c hofs
    have hfind : find_first_of (encode (pre ++ r :: rest)) hdrChar c
        = sizeSum pre := by
      rw [hB, find_hdr_at (encode pre) (encode rest) r c
        (by rw [length_encode]; exact hc) hfree]
      exact length_encode pre
    have hsz : sizeSum (pre ++ r :: rest) = sizeSum pre + (recSize r + sizeSum rest) := by
      rw [sizeSum_append, sizeSum_cons]
    have hUN : npos < U64 := npos_lt
    by_cases hoe : e ≤ sizeSum pre
    · simp only [scanLoop, hfind]
      rw [if_pos hoe]
      rw [filter_eq_nil_of _ _ ?hnone, List.map_nil]
      case hnone =>
        intro x hx
        have hlb := withOffsets_lb x hx
        simp only [Bool.and_eq_false_iff, decide_eq_false_iff_not]
        right
        omega
    · have hnameEnd : find_first_of (encode (pre ++ r :: rest)) nlChar
          (sizeSum pre + 1 + 1) = sizeSum pre + r.name.length + 1 := by
        have h := find_name_end (encode pre) (encode rest) r hnne hnn
        rw [length_encode] at h
        rw [hB, show sizeSum pre + 1 + 1 = sizeSum pre + 2 by omega]
        exact h
      have hsb : (sizeSum pre + r.name.length + 1 + 1) % U64
          = sizeSum pre + r.name.length + 2 := by
        rw [Nat.mod_eq_of_lt (by omega)]
      have hseqEnd : find_first_of (encode (pre ++ r :: rest)) nlChar
          (sizeSum pre + r.name.length + 2 + 1)
          = sizeSum pre + r.name.length + r.seq.length + 2 := by
        have h := find_seq_end (encode pre) (encode rest) r hsne hns
        rw [length_encode] at h
        rw [hB, show sizeSum pre + r.name.length + 2 + 1
          = sizeSum pre + (r.name.length + 3) by omega]
        exact h
      have hcur : (sizeSum pre + r.name.length + r.seq.length + 2 + 1) % U64
          = sizeSum pre + recSize r := by
        rw [Nat.mod_eq_of_lt (by omega)]
        omega
      have hss : sizeSum (pre ++ [r]) = sizeSum pre + recSize r := by
        rw [sizeSum_append]
        simp [sizeSum]
      have happ : (pre ++ [r]) ++ rest = pre ++ r :: rest := by simp
      have hofs2 : ∀ x ∈ withOffsets 0 (pre ++ [r]), x.1 < sizeSum pre + recSize r := by
        intro x hx
        rw [withOffsets_append] at hx
        rcases List.mem_append.mp hx with h | h
        · have := hofs x h
          omega
        · simp only [Nat.zero_add, withOffsets] at h
          rcases List.mem_cons.mp h with h2 | h2
          · have hx1 : x.1 = sizeSum pre := by rw [h2]
            have := recSize_pos r
            omega
          · simp at h2
      have ihres := ih (pre ++ [r]) (sizeSum pre + recSize r) e f
        (by rw [happ]; exact hg)
        hofs2
        (fun _ => le_of_eq hss.symm)
        (by rw [happ]; exact he)
        (by rw [happ]; exact hN)
        (by simp only [List.length_cons] at hfuel; omega)
      rw [happ, hss] at ihres
      simp only [scanLoop, hfind]
      rw [if_neg (by omega)]
      rw [hnameEnd, hsb, hseqEnd, hcur]
      rw [ihres]
      simp only [withOffsets, List.filter_cons]
      rw [if_pos (show (decide (c ≤ sizeSum pre) && decide (sizeSum pre < e)) = true
        by simp; omega)]
      rw [List.map_cons]
      have hfc : List.filter
            (fun x => decide (sizeSum pre + recSize r ≤ x.1) && decide (x.1 < e))
            (withOffsets (sizeSum pre + recSize r) rest) =
          List.filter (fun x => decide (c ≤ x.1) && decide (x.1 < e))
            (withOffsets (sizeSum pre + recSize r) rest) := by
        apply List.filter_congr
        intro x hx
        have hlb := withOffsets_lb x hx
        have h1 : decide (c ≤ x.1) = true := by
          simp only [decide_eq_true_eq]; omega
        have h2 : decide (sizeSum pre + recSize r ≤ x.1) = true := by
          simp only [decide_eq_true_eq]; omega
        rw [h1, h2]
      rw [hfc]
      rfl

theorem withOffsets_ub {o : Nat} {rs : List FastaRec} :
    ∀ x ∈ withOffsets o rs, x.1 < o + sizeSum rs := by
  induction rs generalizing o with
  | nil => intro x hx; simp [withOffsets] at hx
  | cons r rest ih =>
    intro x hx
    have hp := recSize_pos r
    have hsum : sizeSum (r :: rest) = recSize r + sizeSum rest := sizeSum_cons r rest
    rcases List.mem_cons.mp hx with h | h
    · rw [h]
      simp only
      omega
    · have := ih x h
      omega

theorem withOffsets_mem_shift {k : Nat} {rs : List FastaRec} {x : Nat × FastaRec}
    (h : x ∈ withOffsets k rs) : ∃ y ∈ withOffsets 0 rs, x = (k + y.1, y.2) := by
  have hs := withOffsets_shift k 0 rs
  rw [Nat.add_zero] at hs
  rw [hs] at h
  obtain ⟨y, hy, hyx⟩ := List.mem_map.mp h
  exact ⟨y, hy, hyx.symm⟩

theorem split_at_cursor : ∀ (rs : List FastaRec) (c : Nat), c ≤ sizeSum rs →
    ∃ pre suf, rs = pre ++ suf ∧ (∀ x ∈ withOffsets 0 pre, x.1 < c) ∧
      (suf ≠ [] → c ≤ sizeSum pre) := by
  intro rs
  induction rs with
  | nil =>
    intro c hc
    exact ⟨[], [], rfl, by intro x hx; simp [withOffsets] at hx, by intro h; simp at h⟩
  | cons r rest ih =>
    intro c hc
    by_cases hc0 : c = 0
    · refine ⟨[], r :: rest, rfl, by intro x hx; simp [withOffsets] at hx, ?_⟩
      intro _
      simp [sizeSum]
      omega
    · by_cases hcr : c ≤ recSize r
      · refine ⟨[r], rest, rfl, ?_, ?_⟩
        · intro x hx
          simp only [withOffsets] at hx
          rcases List.mem_cons.mp hx with h | h
          · rw [h]; simp only; omega
          · simp [withOffsets] at h
        · intro _
          simp only [sizeSum, List.map_cons, List.map_nil, List.sum_cons,
            List.sum_nil]
          omega
      · have hsum : sizeSum (r :: rest) = recSize r + sizeSum rest := sizeSum_cons r rest
        obtain ⟨pre, suf, heq, hofs, hcs⟩ := ih (c - recSize r) (by omega)
        refine ⟨r :: pre, suf, by rw [heq]; rfl, ?_, ?_⟩
        · intro x hx
          simp only [withOffsets] at hx
          rcases List.mem_cons.mp hx with h | h
          · rw [h]; simp only; omega
          · rw [Nat.zero_add] at h
            obtain ⟨y, hy, hyx⟩ := withOffsets_mem_shift h
            have := hofs y hy
            rw [hyx]
            simp only
            omega
        · intro hsuf
          have := hcs hsuf
          rw [sizeSum_cons]
          omega

theorem scoreRegionRecords_char (rs : List FastaRec) (b e : Nat)
    (hg : goodFasta rs) (he : e ≤ sizeSum rs) (hN : sizeSum rs < npos) :
    scoreRegionRecords (encode rs) b e =
      ((withOffsets 0 rs).filter
          (fun x => decide (b ≤ x.1) && decide (x.1 < e))).map
        (fun x => locatedOf x.1 x.2) := by
  have hlen : (encode rs).length + 1 = sizeSum rs + 1 := by rw [length_encode]
  by_cases hb : b ≤ sizeSum rs
  · obtain ⟨pre, suf, heq, hofs, hcs⟩ := split_at_cursor rs b hb
    subst heq
    have hfuel : suf.length + 1 ≤ (encode (pre ++ suf)).length + 1 := by
      rw [length_encode]
      have h1 := length_le_sizeSum (pre ++ suf)
      rw [List.length_append] at h1
      omega
    rw [scoreRegionRecords, scanLoop_char suf pre b e _ hg hofs hcs he hN hfuel]
    rw [withOffsets_append, List.filter_append, Nat.zero_add]
    rw [filter_eq_nil_of _ (withOffsets 0 pre) ?hpre, List.nil_append]
    case hpre =>
      intro x hx
      have := hofs x hx
      simp only [Bool.and_eq_false_iff, decide_eq_false_iff_not]
      left
      omega
  · have hofs : ∀ x ∈ withOffsets 0 rs, x.1 < b := by
      intro x hx
      have := withOffsets_ub x hx
      omega
    have hfuel : ([] : List FastaRec).length + 1 ≤ (encode rs).length + 1 := by
      simp
    have h0 := scanLoop_char [] rs b e ((encode rs).length + 1)
      (by simpa using hg) hofs (by intro h; exact absurd rfl h)
      (by simpa using he) (by simpa using hN) (by simp)
    rw [List.append_nil] at h0
    rw [scoreRegionRecords, h0]
    simp only [withOffsets, List.filter_nil, List.map_nil]
    rw [eq_comm, List.map_eq_nil_iff]
    apply filter_eq_nil_of
    intro x hx
    have := hofs x hx
    simp only [Bool.and_eq_false_iff, decide_eq_false_iff_not]
    left
    omega

theorem chainFrom_start_le {P : List (Nat × Nat)} {a c : Nat}
    (hP : chainFrom a P c) (hwf : ∀ r ∈ P, r.1 ≤ r.2) : a ≤ c := by
  induction P generalizing a with
  | nil => cases hP; exact le_refl _
  | cons x rest ih =>
    obtain ⟨h1, h2⟩ := hP
    have hx : x.1 ≤ x.2 := hwf x (List.mem_cons_self x rest)
    have := ih h2 (fun t ht => hwf t (List.mem_cons_of_mem x ht))
    omega

theorem chainFrom_ub {P : List (Nat × Nat)} {a c : Nat}
    (hP : chainFrom a P c) (hwf : ∀ r ∈ P, r.1 ≤ r.2) :
    ∀ r ∈ P, r.2 ≤ c := by
  induction P generalizing a with
  | nil => intro r hr; simp at hr
  | cons x rest ih =>
    obtain ⟨h1, h2⟩ := hP
    intro r hr
    rcases List.mem_cons.mp hr with h | h
    · subst h
      exact chainFrom_start_le h2 (fun t ht => hwf t (List.mem_cons_of_mem _ ht))
    · exact ih h2 (fun t ht => hwf t (List.mem_cons_of_mem x ht)) r h

theorem flatMap_sublist_of_mem {α β : Type} (f : α → List β) {a : α} {l : List α}
    (h : a ∈ l) : (f a).Sublist (l.flatMap f) := by
  induction l with
  | nil => simp at h
  | cons x rest ih =>
    rw [List.flatMap_cons]
    rcases List.mem_cons.mp h with h1 | h1
    · subst h1
      exact List.sublist_append_left _ _
    · exact (ih h1).trans (List.sublist_append_right _ _)

theorem mem_scan_iff {rs : List FastaRec} {b e : Nat}
    (hg : goodFasta rs) (he : e ≤ sizeSum rs) (hN : sizeSum rs < npos)
    {x : Nat × FastaRec} (hx : x ∈ withOffsets 0 rs) :
    locatedOf x.1 x.2 ∈ scoreRegionRecords (encode rs) b e ↔
      (b ≤ x.1 ∧ x.1 < e) := by
  rw [scoreRegionRecords_char rs b e hg he hN]
  constructor
  · intro hmem
    obtain ⟨y, hy, hyx⟩ := List.mem_map.mp hmem
    have hy2 := List.mem_filter.mp hy
    have hy1 : y.1 = x.1 := by
      have := congrArg Located.nameBegin hyx
      simp only [locatedOf] at this
      omega
    have := hy2.2
    simp only [Bool.and_eq_true, decide_eq_true_eq] at this
    omega
  · intro hbe
    apply List.mem_map.mpr
    refine ⟨x, List.mem_filter.mpr ⟨hx, ?_⟩, rfl⟩
    simp only [Bool.and_eq_true, decide_eq_true_eq]
    exact hbe

/-- C1: for a well-formed FASTA buffer and any chained partition of it
into nonempty regions, each record, identified by the position of its
header marker byte, is located by exactly one region scan, namely the
scan of the region whose byte range contains that position; the full
record spans are located there even when the record extends past the
region end, and that worker computes the complete match list of the
record (all matrices, all windows) inside its buffer. -/
theorem record_scored_by_unique_region
    (ms : List ScoreMatrix) (rs : List FastaRec) (P : List (Nat × Nat))
    (hg : goodFasta rs) (hN : sizeSum rs < npos)
    (hP : chainFrom 0 P (sizeSum rs))
    (hPw : ∀ reg ∈ P, reg.1 < reg.2) :
    ∀ x ∈ withOffsets 0 rs,
      (∃! reg, reg ∈ P ∧
        locatedOf x.1 x.2 ∈ scoreRegionRecords (encode rs) reg.1 reg.2) ∧
      (∀ reg ∈ P,
        locatedOf x.1 x.2 ∈ scoreRegionRecords (encode rs) reg.1 reg.2 →
        (recordMatches ms (encode rs) (locatedOf x.1 x.2)).Sublist
          (scorer_score ms (encode rs) reg.1 reg.2)) := by
  intro x hx
  have hwf : ∀ reg ∈ P, reg.1 ≤ reg.2 := fun reg hreg => le_of_lt (hPw reg hreg)
  have hub := chainFrom_ub hP hwf
  have hxu : x.1 < sizeSum rs := by
    have := withOffsets_ub x hx
    omega
  constructor
  · obtain ⟨reg, hreg, hreg2⟩ := chainFrom_cover hP x.1 (Nat.zero_le _) hxu
    refine ⟨reg, ⟨hreg, ?_⟩, ?_⟩
    · exact (mem_scan_iff hg (hub reg hreg) hN hx).mpr hreg2
    · rintro reg2 ⟨hreg2m, hmem⟩
      have hbe := (mem_scan_iff hg (hub reg2 hreg2m) hN hx).mp hmem
      exact chainFrom_unique hP hwf x.1 reg2 reg hreg2m hreg hbe.1 hbe.2
        hreg2.1 hreg2.2
  · intro reg hreg hmem
    exact flatMap_sublist_of_mem _ hmem

theorem drop_name_at (pre post : List FastaRec) (r : FastaRec) :
    (encode (pre ++ r :: post)).drop (sizeSum pre + 1) =
      r.name ++ (nlChar :: (r.seq ++ (nlChar :: encode post))) := by
  rw [encode_append, encode_cons, show sizeSum pre + 1 = (encode pre).length + 1
    by rw [length_encode], List.drop_append, encodeRec_append_eq]
  rfl

theorem drop_seq_at (pre post : List FastaRec) (r : FastaRec) :
    (encode (pre ++ r :: post)).drop (sizeSum pre + r.name.length + 2) =
      r.seq ++ (nlChar :: encode post) := by
  rw [encode_append, encode_cons,
    show sizeSum pre + r.name.length + 2
      = (encode pre).length + (r.name.length + 2) by rw [length_encode]; omega,
    List.drop_append, encodeRec_append_eq,
    show r.name.length + 2 = (r.name.length + 1) + 1 by omega,
    List.drop_succ_cons,
    show r.name.length + 1 = r.name.length + 1 from rfl,
    List.drop_append]
  rfl

theorem name_slice (pre post : List FastaRec) (r : FastaRec) :
    ((encode (pre ++ r :: post)).drop (sizeSum pre + 1)).take r.name.length
      = r.name := by
  rw [drop_name_at, List.take_append_of_le_length (le_refl _), List.take_length]

theorem window_slice (pre post : List FastaRec) (r : FastaRec) (b w : Nat)
    (hbw : b + w ≤ r.seq.length) :
    ((encode (pre ++ r :: post)).drop (sizeSum pre + r.name.length + 2 + b)).take w
      = (r.seq.drop b).take w := by
  have hdd : (encode (pre ++ r :: post)).drop (sizeSum pre + r.name.length + 2 + b)
      = ((encode (pre ++ r :: post)).drop (sizeSum pre + r.name.length + 2)).drop b := by
    rw [List.drop_drop]
  rw [hdd, drop_seq_at, List.drop_append_of_le_length (by omega)]
  rw [List.take_append_of_le_length (by rw [List.length_drop]; omega)]

theorem rcRender_eq (fasta : List Char) (b : Nat) : ∀ w, b + w ≤ fasta.length →
    rcRender fasta b w = (((fasta.drop b).take w).map complement).reverse := by
  intro w
  induction w with
  | zero => intro _; rfl
  | succ v ih =>
    intro hw
    have hlt : b + v < fasta.length := by omega
    have hv : (fasta.drop b).take (v + 1)
        = (fasta.drop b).take v ++ [fasta.getD (b + v) 'X'] := by
      rw [List.take_succ]
      have h1 : (fasta.drop b)[v]? = fasta[b + v]? := List.getElem?_drop fasta b v
      rw [h1, List.getElem?_eq_getElem hlt]
      have h2 : fasta.getD (b + v) 'X' = fasta[b + v] := by
        rw [List.getD_eq_getElem?_getD, List.getElem?_eq_getElem hlt]
        rfl
      rw [h2]
      rfl
    rw [rcRender, hv, List.map_append, List.reverse_append, ih (by omega)]
    rfl

theorem windowLoop_shift0 (k se e : Nat) :
    windowLoop (k + se) k (k + e) =
      (windowLoop se 0 e).map (fun w => (k + w.1, k + w.2)) := by
  have h := windowLoop_shift k se 0 e
  rw [Nat.add_zero] at h
  exact h

theorem recordMatches_eq_serial (ms : List ScoreMatrix)
    (pre post : List FastaRec) (r : FastaRec) :
    recordMatches ms (encode (pre ++ r :: post)) (locatedOf (sizeSum pre) r) =
      serialRecordMatches ms r := by
  have hBlen : (encode (pre ++ r :: post)).length
      = sizeSum pre + (recSize r + sizeSum post) := by
    rw [length_encode, sizeSum_append, sizeSum_cons]
  have hrec : recSize r = r.name.length + r.seq.length + 3 := rfl
  unfold recordMatches serialRecordMatches
  congr 1
  funext m
  unfold windowMatches
  simp only [locatedOf]
  rw [show sizeSum pre + r.name.length + r.seq.length + 2
    = sizeSum pre + r.name.length + 2 + r.seq.length by omega]
  rw [windowLoop_shift0 (sizeSum pre + r.name.length + 2) r.seq.length m.width]
  rw [List.filterMap_map]
  apply List.filterMap_congr
  intro w hw
  obtain ⟨j, rfl, hj⟩ := windowLoopF_mem hw
  simp only [Function.comp_apply, emitWindow, serialEmit]
  rw [show sizeSum pre + r.name.length + 2 + (m.width + j)
      - (sizeSum pre + r.name.length + 2 + (0 + j)) = (m.width + j) - (0 + j)
    by omega]
  rw [show (m.width + j) - (0 + j) = m.width by omega]
  rw [show sizeSum pre + r.name.length + 2 + (0 + j)
      - (sizeSum pre + r.name.length + 2) + 1 = (0 + j) + 1 by omega]
  rw [show sizeSum pre + r.name.length + 2 + (m.width + j)
      - (sizeSum pre + r.name.length + 2) = m.width + j by omega]
  rw [show sizeSum pre + r.name.length + 1 - (sizeSum pre + 1) = r.name.length
    by omega]
  rw [name_slice pre post r]
  rw [window_slice pre post r (0 + j) m.width (by omega)]
  rw [rcRender_eq (encode (pre ++ r :: post))
    (sizeSum pre + r.name.length + 2 + (0 + j)) m.width (by omega)]
  rw [window_slice pre post r (0 + j) m.width (by omega)]

theorem withOffsets_mem_split : ∀ {rs : List FastaRec} {o : Nat}
    {x : Nat × FastaRec}, x ∈ withOffsets o rs →
    ∃ pre post, rs = pre ++ x.2 :: post ∧ x.1 = o + sizeSum pre := by
  intro rs
  induction rs with
  | nil => intro o x hx; simp [withOffsets] at hx
  | cons r rest ih =>
    intro o x hx
    rcases List.mem_cons.mp hx with h | h
    · refine ⟨[], rest, ?_, ?_⟩
      · rw [h]
        rfl
      · rw [h]
        simp [sizeSum]
    · obtain ⟨pre, post, hsplit, hoff⟩ := ih h
      refine ⟨r :: pre, post, by rw [hsplit]; rfl, ?_⟩
      rw [hoff, sizeSum_cons]
      omega

theorem withOffsets_self_mem (o : Nat) (pre post : List FastaRec) (r : FastaRec) :
    ((o + sizeSum pre : Nat), r) ∈ withOffsets o (pre ++ r :: post) := by
  rw [withOffsets_append]
  apply List.mem_append_right
  simp [withOffsets]

/-- C2: on every well-formed FASTA buffer, the match lines produced by
the parallel path process_fasta (its output excludes the header line,
which the model does not carry) and the lines produced by the
sequential fallback path process_fasta_serial are equal as sets: each
line occurs in the one exactly when it occurs in the other. -/
theorem parallel_serial_match_set_eq (ms : List ScoreMatrix)
    (rs : List FastaRec) (hg : goodFasta rs) (hN : sizeSum rs < npos)
    (x : MatchRec) :
    (process_fasta ms (some (encode rs)) true =
        Except.ok (blockedRanges (encode rs).length,
          (blockedRanges (encode rs).length).flatMap
            (fun reg => scorer_score ms (encode rs) reg.1 reg.2)) ∧
      process_fasta_serial ms (some rs) =
        Except.ok (rs.flatMap (serialRecordMatches ms))) ∧
    ((x ∈ (blockedRanges (encode rs).length).flatMap
        (fun reg => scorer_score ms (encode rs) reg.1 reg.2)) ↔
      x ∈ rs.flatMap (serialRecordMatches ms)) := by
  refine ⟨⟨rfl, rfl⟩, ?_⟩
  have hlen : (encode rs).length = sizeSum rs := length_encode rs
  have hchain := blockedRanges_chain (encode rs).length
  have hwf := blockedRanges_wf (encode rs).length
  have hub := chainFrom_ub hchain hwf
  constructor
  · intro hx
    obtain ⟨reg, hreg, hxr⟩ := List.mem_flatMap.mp hx
    obtain ⟨L, hL, hxm⟩ := List.mem_flatMap.mp
      (show x ∈ (scoreRegionRecords (encode rs) reg.1 reg.2).flatMap
        (recordMatches ms (encode rs)) from hxr)
    rw [scoreRegionRecords_char rs reg.1 reg.2 hg
      (by rw [← hlen]; exact hub reg hreg) hN] at hL
    obtain ⟨y, hy, hyL⟩ := List.mem_map.mp hL
    obtain ⟨pre, post, hsplit, hoff⟩ :=
      withOffsets_mem_split (List.mem_filter.mp hy).1
    rw [Nat.zero_add] at hoff
    subst hsplit
    rw [← hyL, hoff, recordMatches_eq_serial ms pre post y.2] at hxm
    exact List.mem_flatMap.mpr
      ⟨y.2, List.mem_append_right _ (List.mem_cons_self _ _), hxm⟩
  · intro hx
    obtain ⟨r, hr, hxr⟩ := List.mem_flatMap.mp hx
    obtain ⟨pre, post, rfl⟩ := List.append_of_mem hr
    have hmemoff : ((sizeSum pre : Nat), r) ∈ withOffsets 0 (pre ++ r :: post) := by
      have := withOffsets_self_mem 0 pre post r
      rwa [Nat.zero_add] at this
    have hofflt : sizeSum pre < sizeSum (pre ++ r :: post) := by
      have := withOffsets_ub _ hmemoff
      simpa using this
    obtain ⟨reg, hreg, hregc⟩ := chainFrom_cover hchain (sizeSum pre)
      (Nat.zero_le _) (by rw [hlen]; exact hofflt)
    refine List.mem_flatMap.mpr ⟨reg, hreg, ?_⟩
    show x ∈ (scoreRegionRecords (encode (pre ++ r :: post)) reg.1 reg.2).flatMap
      (recordMatches ms (encode (pre ++ r :: post)))
    refine List.mem_flatMap.mpr ⟨locatedOf (sizeSum pre) r, ?_, ?_⟩
    · rw [scoreRegionRecords_char _ reg.1 reg.2 hg
        (by rw [← hlen]; exact hub reg hreg) hN]
      refine List.mem_map.mpr ⟨((sizeSum pre : Nat), r),
        List.mem_filter.mpr ⟨hmemoff, ?_⟩, rfl⟩
      simp only [Bool.and_eq_true, decide_eq_true_eq]
      exact hregc
    · rw [recordMatches_eq_serial ms pre post r]
      exact hxr


/-- C4: for every record span and matrix, the window loop evaluates
exactly L - W + 1 windows when the sequence span length L is at least
the window width W, and zero windows when L is smaller than W. -/
theorem window_count (m : ScoreMatrix) (L : Located) (h : L.seqBegin ≤ L.seqEnd) :
    (windowLoop L.seqEnd L.seqBegin (L.seqBegin + m.width)).length =
      if m.width ≤ L.seqEnd - L.seqBegin then
        L.seqEnd - L.seqBegin - m.width + 1
      else 0 := by
  rw [windowLoop_length]
  by_cases hw : m.width ≤ L.seqEnd - L.seqBegin
  · rw [if_pos hw]
    omega
  · rw [if_neg hw]
    omega

def c4m : ScoreMatrix := ⟨['W'], 3, fun _ => 0, [1], 1, 0, false⟩

def c4L : Located := ⟨0, 1, 2, 7⟩

/-- Witness for C4 at a span of length 5 and width 3: three windows. -/
theorem window_count_witness :
    c4L.seqBegin ≤ c4L.seqEnd ∧
      ((windowLoop c4L.seqEnd c4L.seqBegin (c4L.seqBegin + c4m.width)).length =
        if c4m.width ≤ c4L.seqEnd - c4L.seqBegin then
          c4L.seqEnd - c4L.seqBegin - c4m.width + 1
        else 0) :=
  ⟨by decide, window_count c4m c4L (by decide)⟩

def c5fasta : List Char := ['>', 'a', '\n', 'C', '\n']

def c5L : Located := ⟨1, 2, 3, 4⟩

def c5mExact : ScoreMatrix := ⟨['E'], 1, fun _ => 0, [mkRat 1 1000], 1, 0, false⟩

def c5mBelow : ScoreMatrix :=
  ⟨['B'], 1, fun _ => 0, [mkRat 9999 10000000], 1, 0, false⟩

/-- C5: a match is emitted for a window exactly when its looked-up
p-value is strictly below the threshold, whose exact value is 0.001;
at a looked-up p-value of exactly 0.001 nothing is emitted, and at
0.0009999 a match is emitted. -/
theorem match_emitted_iff_pvalue_below_threshold :
    significanceThreshold = 1 / 1000 ∧
    (∀ (m : ScoreMatrix) (fasta : List Char) (L : Located) (b e : Nat),
      (emitWindow m fasta L b e).isSome ↔
        m.pvalues.getD (m.scoreWindow ((fasta.drop b).take (e - b))) 1
          < significanceThreshold) ∧
    emitWindow c5mExact c5fasta c5L 3 4 = none ∧
    (emitWindow c5mBelow c5fasta c5L 3 4).isSome = true := by
  refine ⟨by rw [significanceThreshold, Rat.mkRat_eq_div]; norm_num,
    ?_, by decide, by decide⟩
  intro m fasta L b e
  simp only [emitWindow]
  by_cases h : m.pvalues.getD (m.scoreWindow ((fasta.drop b).take (e - b))) 1
      < significanceThreshold
  · rw [if_pos h]
    simpa using h
  · rw [if_neg h]
    simpa using h

/-- C8: the matched-sequence field of an emitted match is the window
bytes complemented and walked last byte to first for a reverse
complement matrix, and the window bytes verbatim in forward order
otherwise; concretely the window AAGG renders as CCTT under reverse
complement. -/
theorem matched_sequence_rendering :
    (∀ (m : ScoreMatrix) (fasta : List Char) (L : Located) (b e : Nat)
        (mr : MatchRec),
      emitWindow m fasta L b e = some mr → b + m.width ≤ fasta.length →
      mr.matched = if m.isRC then
          (((fasta.drop b).take m.width).map complement).reverse
        else (fasta.drop b).take m.width) ∧
    rcRender ['A', 'A', 'G', 'G'] 0 4 = ['C', 'C', 'T', 'T'] := by
  refine ⟨?_, by decide⟩
  intro m fasta L b e mr hemit hb
  simp only [emitWindow] at hemit
  by_cases h : m.pvalues.getD (m.scoreWindow ((fasta.drop b).take (e - b))) 1
      < significanceThreshold
  · rw [if_pos h] at hemit
    obtain rfl := (Option.some.inj hemit).symm
    cases hm : m.isRC
    · simp only [hm, Bool.false_eq_true, if_false]
    · simp only [hm, if_true]
      exact rcRender_eq fasta b m.width hb
  · rw [if_neg h] at hemit
    exact absurd hemit (by simp)

def c8m : ScoreMatrix := ⟨['R'], 4, fun _ => 0, [mkRat 0 1], 1, 0, true⟩

def c8fasta : List Char := ['A', 'A', 'G', 'G']

def c8L : Located := ⟨0, 0, 0, 4⟩

def c8mr : MatchRec := (emitWindow c8m c8fasta c8L 0 4).get (by decide)

/-- Witness for C8: a reverse-complement match over the window AAGG. -/
theorem matched_sequence_rendering_witness :
    emitWindow c8m c8fasta c8L 0 4 = some c8mr ∧
      0 + c8m.width ≤ c8fasta.length ∧
      (c8mr.matched = if c8m.isRC then
          (((c8fasta.drop 0).take c8m.width).map complement).reverse
        else (c8fasta.drop 0).take c8m.width) ∧
      c8mr.matched = ['C', 'C', 'T', 'T'] ∧
      rcRender ['A', 'A', 'G', 'G'] 0 4 = ['C', 'C', 'T', 'T'] :=
  ⟨(Option.some_get _).symm, by decide,
    matched_sequence_rendering.1 c8m c8fasta c8L 0 4 c8mr
      (Option.some_get _).symm (by decide),
    by decide, matched_sequence_rendering.2⟩

theorem flatMap_map_comp {α β γ : Type} (f : α → β) (g : β → List γ)
    (l : List α) : (l.map f).flatMap g = l.flatMap (fun x => g (f x)) := by
  induction l with
  | nil => rfl
  | cons a rest ih => simp [ih]

/-- C6 (amended): within one region scan the worker buffer receives
match lines grouped by record in region scan order; within a record
the matrices come in matrix-list order, and within one matrix the
windows come in position order. -/
theorem worker_buffer_order (ms : List ScoreMatrix) (rs : List FastaRec)
    (b e : Nat) (hg : goodFasta rs) (he : e ≤ sizeSum rs)
    (hN : sizeSum rs < npos) :
    scorer_score ms (encode rs) b e =
      ((withOffsets 0 rs).filter
          (fun x => decide (b ≤ x.1) && decide (x.1 < e))).flatMap
        (fun x => ms.flatMap
          (fun m => windowMatches m (encode rs) (locatedOf x.1 x.2))) := by
  show (scoreRegionRecords (encode rs) b e).flatMap (recordMatches ms (encode rs))
    = _
  rw [scoreRegionRecords_char rs b e hg he hN, flatMap_map_comp]
  rfl

def c6m1 : ScoreMatrix := ⟨['M', '1'], 1, fun _ => 0, [mkRat 0 1], 1, 0, false⟩

def c6m2 : ScoreMatrix := ⟨['M', '2'], 1, fun _ => 0, [mkRat 0 1], 1, 0, false⟩

def c6rs : List FastaRec := [⟨['a'], ['C', 'G']⟩]

/-- Counterexample for C6 as stated: with two width-one matrices that
both match everywhere on the record aCG, the worker buffer holds both
windows of matrix M1 before any line of matrix M2; the claimed order,
window position first and matrix order second, differs at the second
line. The match lines are projected to pattern name and start
position, which suffices to distinguish the orders. -/
theorem worker_buffer_order_counterexample :
    ((scorer_score [c6m1, c6m2] (encode c6rs) 0 6).map
        (fun mr => (mr.pattern, mr.start)) =
      [(['M', '1'], 1), (['M', '1'], 2), (['M', '2'], 1), (['M', '2'], 2)]) ∧
    ((scorer_score [c6m1, c6m2] (encode c6rs) 0 6).map
        (fun mr => (mr.pattern, mr.start)) ≠
      [(['M', '1'], 1), (['M', '2'], 1), (['M', '1'], 2), (['M', '2'], 2)]) := by
  constructor
  · decide
  · decide

/-- Witness for C6 (amended) on one record and two matrices. -/
theorem worker_buffer_order_witness :
    goodFasta c6rs ∧ 6 ≤ sizeSum c6rs ∧ sizeSum c6rs < npos ∧
      scorer_score [c6m1, c6m2] (encode c6rs) 0 6 =
        ((withOffsets 0 c6rs).filter
            (fun x => decide (0 ≤ x.1) && decide (x.1 < 6))).flatMap
          (fun x => [c6m1, c6m2].flatMap
            (fun m => windowMatches m (encode c6rs) (locatedOf x.1 x.2))) :=
  ⟨by decide, by decide, by decide,
    worker_buffer_order [c6m1, c6m2] c6rs 0 6 (by decide) (by decide) (by decide)⟩

theorem seq_slice (pre post : List FastaRec) (r : FastaRec) :
    ((encode (pre ++ r :: post)).drop
        (sizeSum pre + r.name.length + 2)).take r.seq.length = r.seq := by
  rw [drop_seq_at, List.take_append_of_le_length (le_refl _), List.take_length]

/-- C7 (amended): on well-formed records, every nonempty name and
nonempty sequence, each record located by the region scanner has its
name span running from the byte after the header marker to the first
line break after the marker, its sequence span starting right after
that line break and ending at the next line break, and the two spans
extract exactly the record name bytes, verbatim, and the record
sequence bytes. -/
theorem located_spans (rs : List FastaRec) (b e : Nat) (hg : goodFasta rs)
    (he : e ≤ sizeSum rs) (hN : sizeSum rs < npos) :
    ∀ L ∈ scoreRegionRecords (encode rs) b e,
      L.nameEnd = find_first_of (encode rs) nlChar L.nameBegin ∧
      L.seqBegin = L.nameEnd + 1 ∧
      L.seqEnd = find_first_of (encode rs) nlChar L.seqBegin ∧
      ∃ x ∈ withOffsets 0 rs, L = locatedOf x.1 x.2 ∧
        ((encode rs).drop L.nameBegin).take (L.nameEnd - L.nameBegin)
          = x.2.name ∧
        ((encode rs).drop L.seqBegin).take (L.seqEnd - L.seqBegin)
          = x.2.seq := by
  intro L hL
  rw [scoreRegionRecords_char rs b e hg he hN] at hL
  obtain ⟨y, hy, hyL⟩ := List.mem_map.mp hL
  obtain ⟨pre, post, hsplit, hoff⟩ :=
    withOffsets_mem_split (List.mem_filter.mp hy).1
  rw [Nat.zero_add] at hoff
  subst hsplit
  have hgr : goodRec y.2 :=
    hg y.2 (List.mem_append_right _ (List.mem_cons_self _ _))
  obtain ⟨hnne, hsne, hhn, hnn, hhs, hns⟩ := hgr
  have hfind1 := find_first_of_shape (drop_name_at pre post y.2) hnn
  have hfind2 := find_first_of_shape (drop_seq_at pre post y.2) hns
  have hLval : L = locatedOf (sizeSum pre) y.2 := by
    rw [← hyL, hoff]
  subst hLval
  refine ⟨?_, ?_, ?_, ⟨y, (List.mem_filter.mp hy).1, ?_, ?_, ?_⟩⟩
  · show sizeSum pre + y.2.name.length + 1
      = find_first_of (encode (pre ++ y.2 :: post)) nlChar (sizeSum pre + 1)
    rw [hfind1]
    omega
  · show sizeSum pre + y.2.name.length + 2 = sizeSum pre + y.2.name.length + 1 + 1
    omega
  · show sizeSum pre + y.2.name.length + y.2.seq.length + 2
      = find_first_of (encode (pre ++ y.2 :: post)) nlChar
          (sizeSum pre + y.2.name.length + 2)
    rw [hfind2]
    omega
  · show locatedOf (sizeSum pre) y.2 = locatedOf y.1 y.2
    rw [hoff]
  · show ((encode (pre ++ y.2 :: post)).drop (sizeSum pre + 1)).take
        (sizeSum pre + y.2.name.length + 1 - (sizeSum pre + 1)) = y.2.name
    rw [show sizeSum pre + y.2.name.length + 1 - (sizeSum pre + 1)
      = y.2.name.length by omega]
    exact name_slice pre post y.2
  · show ((encode (pre ++ y.2 :: post)).drop
        (sizeSum pre + y.2.name.length + 2)).take
        (sizeSum pre + y.2.name.length + y.2.seq.length + 2
          - (sizeSum pre + y.2.name.length + 2)) = y.2.seq
    rw [show sizeSum pre + y.2.name.length + y.2.seq.length + 2
      - (sizeSum pre + y.2.name.length + 2) = y.2.seq.length by omega]
    exact seq_slice pre post y.2

def c7fasta : List Char := ['>', '\n', 'A', 'C', '\n']

/-- Counterexample for C7 as stated: on the buffer with an empty
record name, the marker is followed immediately by a line break, yet
the scanner's located name end is not the first line break after the
marker: the search starts one byte too late and runs into the line
break that terminates the sequence line instead. -/
theorem located_spans_counterexample :
    ∃ L ∈ scoreRegionRecords c7fasta 0 5,
      L.nameEnd ≠ find_first_of c7fasta nlChar L.nameBegin := by
  decide

def c7rs : List FastaRec := [⟨['b'], ['A', 'C']⟩]

/-- Witness for C7 (amended) on a single well-formed record. -/
theorem located_spans_witness :
    goodFasta c7rs ∧ 6 ≤ sizeSum c7rs ∧ sizeSum c7rs < npos ∧
      ∀ L ∈ scoreRegionRecords (encode c7rs) 0 6,
        L.nameEnd = find_first_of (encode c7rs) nlChar L.nameBegin ∧
        L.seqBegin = L.nameEnd + 1 ∧
        L.seqEnd = find_first_of (encode c7rs) nlChar L.seqBegin ∧
        ∃ x ∈ withOffsets 0 c7rs, L = locatedOf x.1 x.2 ∧
          ((encode c7rs).drop L.nameBegin).take (L.nameEnd - L.nameBegin)
            = x.2.name ∧
          ((encode c7rs).drop L.seqBegin).take (L.seqEnd - L.seqBegin)
            = x.2.seq :=
  ⟨by decide, by decide, by decide,
    located_spans c7rs 0 6 (by decide) (by decide) (by decide)⟩

def c3fasta : List Char := ['>', 'n', '\n', 'A', 'C']

def c3located : Located := ⟨1, 2, 3, npos⟩

def c3m : ScoreMatrix := ⟨['C'], 2, fun _ => 0, [mkRat 0 1], 1, 0, false⟩

/-- C3 (code bug evidence): on a five-byte buffer whose final record
lacks a trailing line break, the scanner records a sequence end of
npos, the window loop bound then admits the window over bytes four to
six, which extends past the five-byte buffer, and the cursor update
wraps to zero so the loop relocates the same record instead of
terminating. -/
theorem scan_overruns_buffer_without_trailing_newline :
    c3fasta.length = 5 ∧
    c3located ∈ scoreRegionRecords c3fasta 0 5 ∧
    c3located.seqEnd = npos ∧
    (4, 6) ∈ windowLoop c3located.seqEnd c3located.seqBegin
      (c3located.seqBegin + c3m.width) ∧
    c3fasta.length < 6 ∧
    scanLoop c3fasta 2 0 5 = [c3located, c3located] := by
  refine ⟨by decide, by decide, by decide, ?_, by decide, by decide⟩
  exact @windowLoop_mem_intro npos 3 5 1 (by decide)

/-- C9 (amended): an input file that cannot be opened makes
process_fasta fail with the reported open error before anything is
dispatched: the error outcome carries no dispatched region and no
scan output. -/
theorem input_open_failure_aborts (ms : List ScoreMatrix) (outputOk : Bool) :
    process_fasta ms none outputOk =
      Except.error ("Failed to open file".toList) := rfl

def c9fasta : List Char := ['>', 'a', '\n', 'C', '\n']

def c9m : ScoreMatrix := ⟨['P'], 1, fun _ => 0, [mkRat 0 1], 1, 0, false⟩

/-- Counterexample for C9 as stated: with a readable input but an
unwritable output path, process_fasta does not fail: it dispatches the
region covering the whole buffer and completes, with the written lines
silently lost. -/
theorem open_failure_counterexample :
    process_fasta [c9m] (some c9fasta) false =
      Except.ok ([(0, 5)], ([] : List MatchRec)) ∧
    ([((0 : Nat), (5 : Nat))] : List (Nat × Nat)) ≠ [] := by
  constructor
  · rfl
  · decide

def c1ms : List ScoreMatrix := [⟨['M'], 1, fun _ => 0, [mkRat 0 1], 1, 0, false⟩]

def c1rs : List FastaRec := [⟨['a'], ['C', 'G']⟩, ⟨['b'], ['T', 'T']⟩]

def c1P : List (Nat × Nat) := [(0, 3), (3, 12)]

/-- Witness for C1: two records, a partition whose boundary falls
inside the first record. -/
theorem record_scored_by_unique_region_witness :
    goodFasta c1rs ∧ sizeSum c1rs < npos ∧
      chainFrom 0 c1P (sizeSum c1rs) ∧ (∀ reg ∈ c1P, reg.1 < reg.2) ∧
      ∀ x ∈ withOffsets 0 c1rs,
        (∃! reg, reg ∈ c1P ∧
          locatedOf x.1 x.2 ∈ scoreRegionRecords (encode c1rs) reg.1 reg.2) ∧
        (∀ reg ∈ c1P,
          locatedOf x.1 x.2 ∈ scoreRegionRecords (encode c1rs) reg.1 reg.2 →
          (recordMatches c1ms (encode c1rs) (locatedOf x.1 x.2)).Sublist
            (scorer_score c1ms (encode c1rs) reg.1 reg.2)) := by
  have hchain : chainFrom 0 c1P (sizeSum c1rs) := ⟨rfl, rfl, rfl⟩
  exact ⟨by decide, by decide, hchain, by decide,
    record_scored_by_unique_region c1ms c1rs c1P (by decide) (by decide)
      hchain (by decide)⟩

def c2ms : List ScoreMatrix := [⟨['Q'], 1, fun _ => 0, [mkRat 0 1], 1, 0, false⟩]

def c2rs : List FastaRec := [⟨['a'], ['C', 'G']⟩]

def c2x : MatchRec := ⟨['Q'], ['a'], 1, 1, '+', 0, 0, ['C']⟩

/-- Witness for C2 on a one-record buffer. -/
theorem parallel_serial_match_set_eq_witness :
    goodFasta c2rs ∧ sizeSum c2rs < npos ∧
      ((process_fasta c2ms (some (encode c2rs)) true =
          Except.ok (blockedRanges (encode c2rs).length,
            (blockedRanges (encode c2rs).length).flatMap
              (fun reg => scorer_score c2ms (encode c2rs) reg.1 reg.2)) ∧
        process_fasta_serial c2ms (some c2rs) =
          Except.ok (c2rs.flatMap (serialRecordMatches c2ms))) ∧
      ((c2x ∈ (blockedRanges (encode c2rs).length).flatMap
          (fun reg => scorer_score c2ms (encode c2rs) reg.1 reg.2)) ↔
        c2x ∈ c2rs.flatMap (serialRecordMatches c2ms))) :=
  ⟨by decide, by decide,
    parallel_serial_match_set_eq c2ms c2rs (by decide) (by decide) c2x⟩
